import Mathlib

/-!
Verification of the object-tasks module: the Rectangle constructor, the JSON
encode/decode helpers, and the cssSelectorBuilder fluent CSS-selector builder.
The definitions below are a shallow embedding of `src/06-objects-tasks.js`.
-/

/-- The two builder error kinds thrown by the source: `duplicate` stands for the
Error object `erAlrOc` (message about element, id and pseudo-element occurring
more than once) and `order` stands for `erWOrd` (message about the required
arrangement order). -/
inductive BErr where
  | duplicate
  | order
deriving DecidableEq

/-- The state carried by every builder object in the source: the accumulated
selector text `total`, the last-added-category marker `prev`, and the three
occurrence flags `elOc`, `idOc`, `pElOc`. -/
structure CSSB where
  total : String
  prev : String
  elOc : Bool
  idOc : Bool
  pElOc : Bool
deriving DecidableEq

/-- The facade object `cssSelectorBuilder`: empty text, empty marker, all
occurrence flags false. -/
def cssSelectorBuilder : CSSB :=
  { total := "", prev := "", elOc := false, idOc := false, pElOc := false }

/-- Embedding of the source method `element(value)`: throws the duplicate error
when `elOc` is set, then the order error when `prev` is nonempty, otherwise
returns the spread copy with `prev = 'elem'`, `elOc = true` and the bare name
appended to `total`. -/
def CSSB.element (b : CSSB) (value : String) : Except BErr CSSB :=
  if b.elOc then .error .duplicate
  else if b.prev ≠ "" then .error .order
  else .ok { b with prev := "elem", elOc := true, total := b.total ++ value }

/-- Embedding of the source method `id(value)`: throws the duplicate error when
`idOc` is set, then the order error when `prev` is `'class'` or `'pseudoElem'`,
otherwise returns the spread copy with `#value` appended. -/
def CSSB.id (b : CSSB) (value : String) : Except BErr CSSB :=
  if b.idOc then .error .duplicate
  else if b.prev = "class" ∨ b.prev = "pseudoElem" then .error .order
  else .ok { b with prev := "id", idOc := true, total := b.total ++ "#" ++ value }

/-- Embedding of the source method `class(value)`: throws the order error when
`prev` is `'attr'`, otherwise returns the spread copy with `.value` appended. -/
def CSSB.«class» (b : CSSB) (value : String) : Except BErr CSSB :=
  if b.prev = "attr" then .error .order
  else .ok { b with prev := "class", total := b.total ++ "." ++ value }

/-- Embedding of the source method `attr(value)`: throws the order error when
`prev` is `'pseudoClass'`, otherwise returns the spread copy with `[value]`
appended. -/
def CSSB.attr (b : CSSB) (value : String) : Except BErr CSSB :=
  if b.prev = "pseudoClass" then .error .order
  else .ok { b with prev := "attr", total := b.total ++ "[" ++ value ++ "]" }

/-- Embedding of the source method `pseudoClass(value)`: throws the order error
when `prev` is `'pseudoElem'`, otherwise returns the spread copy with `:value`
appended. -/
def CSSB.pseudoClass (b : CSSB) (value : String) : Except BErr CSSB :=
  if b.prev = "pseudoElem" then .error .order
  else .ok { b with prev := "pseudoClass", total := b.total ++ ":" ++ value }

/-- Embedding of the source method `pseudoElement(value)`: throws the duplicate
error when `pElOc` is set, otherwise returns the spread copy with `::value`
appended. -/
def CSSB.pseudoElement (b : CSSB) (value : String) : Except BErr CSSB :=
  if b.pElOc then .error .duplicate
  else .ok { b with prev := "pseudoElem", pElOc := true, total := b.total ++ "::" ++ value }

/-- Embedding of the source method `combine(selector1, combinator, selector2)`:
returns the spread copy of the receiver whose `total` is the template literal
joining the two selector texts around the combinator token. It performs no
check and cannot fail. -/
def CSSB.combine (b : CSSB) (s1 : CSSB) (comb : String) (s2 : CSSB) : CSSB :=
  { b with total := s1.total ++ " " ++ comb ++ " " ++ s2.total }

/-- Embedding of the source method `stringify()`: returns `total` as-is. -/
def CSSB.stringify (b : CSSB) : String :=
  b.total

/-- One add-operation of a builder chain (the six fragment-adding methods,
with the string argument passed to the method). -/
inductive Op where
  | elementOp (v : String)
  | idOp (v : String)
  | classOp (v : String)
  | attrOp (v : String)
  | pseudoClassOp (v : String)
  | pseudoElementOp (v : String)
deriving DecidableEq

/-- Dispatch an add-operation to the corresponding builder method. -/
def applyOp (b : CSSB) : Op → Except BErr CSSB
  | .elementOp v => b.element v
  | .idOp v => b.id v
  | .classOp v => b.«class» v
  | .attrOp v => b.attr v
  | .pseudoClassOp v => b.pseudoClass v
  | .pseudoElementOp v => b.pseudoElement v

/-- The text fragment that an add-operation appends to `total` on success. -/
def fragText : Op → String
  | .elementOp v => v
  | .idOp v => "#" ++ v
  | .classOp v => "." ++ v
  | .attrOp v => "[" ++ v ++ "]"
  | .pseudoClassOp v => ":" ++ v
  | .pseudoElementOp v => "::" ++ v

/-- Run a list of add-operations starting from a given builder state, stopping
at the first thrown error. -/
def runFrom (b : CSSB) : List Op → Except BErr CSSB
  | [] => .ok b
  | o :: t =>
    match applyOp b o with
    | .error e => .error e
    | .ok b2 => runFrom b2 t

/-- Run a builder chain from the facade `cssSelectorBuilder`. -/
def runOps (ops : List Op) : Except BErr CSSB :=
  runFrom cssSelectorBuilder ops

/-- Whether a chain contains an element add-operation. -/
def hasElement (ops : List Op) : Bool :=
  ops.any fun o =>
    match o with
    | .elementOp _ => true
    | _ => false

/-- Whether an add-operation is an element add. -/
def isElemOp : Op → Bool
  | .elementOp _ => true
  | _ => false

/-- Boolean success test for a builder call. -/
def isOkB (e : Except BErr CSSB) : Bool :=
  match e with
  | .ok _ => true
  | .error _ => false

/-- Boolean test for failing with the order error specifically. -/
def orderErrB (e : Except BErr CSSB) : Bool :=
  match e with
  | .error .order => true
  | _ => false

/-- A heap of builder objects: the spread operator in the source never writes
to an existing object, it only reads the receiver and allocates a fresh
object, which we model as appending to this list. -/
abbrev Heap := List CSSB

/-- Allocate a fresh builder object on the heap and return its reference. -/
def alloc (h : Heap) (b : CSSB) : Heap × Nat :=
  (h ++ [b], h.length)

/-- Heap-level add-operation: read the fields of the receiver object, perform
the checks of the method, and on success allocate the spread copy. `none`
means the reference is dangling (never the case for source-produced refs). -/
def applyOpH (h : Heap) (r : Nat) (o : Op) : Option (Except BErr (Heap × Nat)) :=
  (h[r]?).map fun b => (applyOp b o).map (alloc h)

/-- Heap-level combine: read the receiver and the two selector objects and
allocate the combined spread copy. -/
def combineH (h : Heap) (r a c : Nat) (comb : String) : Option (Heap × Nat) :=
  match h[r]?, h[a]?, h[c]? with
  | some b, some s1, some s2 => some (alloc h (b.combine s1 comb s2))
  | _, _, _ => none

/-- Embedding of the source constructor function `Rectangle(width, height)`.
JavaScript numbers are modelled as integers; the constructor stores both
inputs unvalidated. -/
structure Rectangle where
  width : Int
  height : Int

/-- Embedding of the `getArea` closure: it reads `this.width` and
`this.height` at call time, so it is a function of the current field values,
not a cached product. -/
def Rectangle.getArea (r : Rectangle) : Int :=
  r.width * r.height

/-- Modelled from the spec: the plain structural values handled by the standard
JSON serialization that `getJSON` and `fromJSON` delegate to (the host
built-ins are not part of the repository source). Numbers are modelled as
integers. -/
inductive JVal where
  | null
  | bool (b : Bool)
  | num (n : Int)
  | str (s : String)
  | arr (elems : List JVal)
  | obj (fields : List (String × JVal))

/-- Boolean test for a decimal digit character. -/
def digitB (c : Char) : Bool :=
  decide (48 ≤ c.toNat ∧ c.toNat ≤ 57)

/-- Boolean test for a JSON whitespace character. -/
def isWsC (c : Char) : Bool :=
  decide (c = ' ' ∨ c = '\n' ∨ c = '\t' ∨ c = '\r')

/-- The decimal digit character for a value below ten. -/
def digitChar (k : Nat) : Char :=
  Char.ofNat (48 + k)

/-- The lowercase hexadecimal digit character for a value below sixteen. -/
def hexDigitChar (k : Nat) : Char :=
  if k < 10 then Char.ofNat (48 + k) else Char.ofNat (87 + k)

/-- Fuel-indexed digit printer (the fuel strictly exceeds the number). -/
def natDigitsAux : Nat → Nat → List Char
  | 0, _ => []
  | fuel + 1, m =>
    if m < 10 then [digitChar m]
    else natDigitsAux fuel (m / 10) ++ [digitChar (m % 10)]

/-- Modelled from the spec: the decimal digit list of a natural number, most
significant digit first, as the standard serialization prints it. -/
def natDigits (m : Nat) : List Char :=
  natDigitsAux (m + 1) m

/-- Modelled from the spec: the character list of an integer literal. -/
def intChars (n : Int) : List Char :=
  if n < 0 then '-' :: natDigits n.natAbs else natDigits n.natAbs

/-- Modelled from the spec: the escape sequence the standard JSON serialization
emits for one character inside a string literal. -/
def escChar (c : Char) : List Char :=
  if c = '"' then ['\\', '"']
  else if c = '\\' then ['\\', '\\']
  else if c = '\n' then ['\\', 'n']
  else if c = '\t' then ['\\', 't']
  else if c = '\r' then ['\\', 'r']
  else if c = '\x08' then ['\\', 'b']
  else if c = '\x0c' then ['\\', 'f']
  else if c.toNat < 32 then
    ['\\', 'u', '0', '0', hexDigitChar (c.toNat / 16), hexDigitChar (c.toNat % 16)]
  else [c]

/-- Escape every character of a string body. -/
def escAll (l : List Char) : List Char :=
  l.foldr (fun c acc => escChar c ++ acc) []

mutual

/-- Modelled from the spec: the canonical JSON text (as a character list) of a
value, exactly as the standard structural serialization produces it: no
whitespace, object keys in stored order. -/
def encVal : JVal → List Char
  | .null => "null".data
  | .bool true => "true".data
  | .bool false => "false".data
  | .num n => intChars n
  | .str s => '"' :: (escAll s.data ++ ['"'])
  | .arr xs => '[' :: (encElems xs ++ [']'])
  | .obj fs => '\x7b' :: (encFields fs ++ ['\x7d'])

/-- Comma-separated encodings of array elements. -/
def encElems : List JVal → List Char
  | [] => []
  | [x] => encVal x
  | x :: y :: t => encVal x ++ ',' :: encElems (y :: t)

/-- Comma-separated encodings of object members, each `"key":value`. -/
def encFields : List (String × JVal) → List Char
  | [] => []
  | [p] => '"' :: (escAll p.1.data ++ '"' :: ':' :: encVal p.2)
  | p :: q :: t => ('"' :: (escAll p.1.data ++ '"' :: ':' :: encVal p.2)) ++ ',' :: encFields (q :: t)

end

mutual

/-- Fuel measure needed by the fuel-indexed parser to consume a value. -/
def nfV : JVal → Nat
  | .null => 1
  | .bool _ => 1
  | .num _ => 1
  | .str _ => 1
  | .arr xs => 1 + nfElems xs
  | .obj fs => 1 + nfMembers fs

/-- Fuel measure for a nonempty element list. -/
def nfElems : List JVal → Nat
  | [] => 0
  | x :: t => 1 + nfV x + nfElems t

/-- Fuel measure for a nonempty member list. -/
def nfMembers : List (String × JVal) → Nat
  | [] => 0
  | p :: t => 1 + nfV p.2 + nfMembers t

end

/-- Boolean test that a list of keys has no duplicate. -/
def nodupB : List String → Bool
  | [] => true
  | k :: t => !(t.contains k) && nodupB t

mutual

/-- Well-formedness of a value as the image of a real JavaScript plain value:
every object node has pairwise distinct keys (a JavaScript object cannot hold
the same own key twice). -/
def plainV : JVal → Bool
  | .null => true
  | .bool _ => true
  | .num _ => true
  | .str _ => true
  | .arr xs => plainElems xs
  | .obj fs => nodupB (fs.map Prod.fst) && plainMembers fs

/-- Well-formedness of every element of a list. -/
def plainElems : List JVal → Bool
  | [] => true
  | x :: t => plainV x && plainElems t

/-- Well-formedness of every member value of a list. -/
def plainMembers : List (String × JVal) → Bool
  | [] => true
  | p :: t => plainV p.2 && plainMembers t

end

/-- Modelled from the spec: property assignment on a JavaScript object — an
existing key keeps its position and gets the new value, a fresh key is
appended. -/
def setField : List (String × JVal) → String → JVal → List (String × JVal)
  | [], k, v => [(k, v)]
  | (k2, v2) :: t, k, v => if k2 = k then (k, v) :: t else (k2, v2) :: setField t k v

/-- Build an object member list by assigning the parsed members in order
(duplicate keys in the text: the last value wins, as in the host parser). -/
def buildObj (ps : List (String × JVal)) : List (String × JVal) :=
  ps.foldl (fun a p => setField a p.1 p.2) []

/-- Skip JSON whitespace. -/
def skipWs : List Char → List Char
  | [] => []
  | c :: t => if isWsC c then skipWs t else c :: t

/-- Whether the input starts with a decimal digit. -/
def headDigitB : List Char → Bool
  | [] => false
  | c :: _ => digitB c

/-- Split the longest digit prefix off the input. -/
def takeDigits : List Char → List Char × List Char
  | [] => ([], [])
  | c :: t =>
    if digitB c then
      let p := takeDigits t
      (c :: p.1, p.2)
    else ([], c :: t)

/-- The natural number denoted by a digit list, most significant first. -/
def digitsToNat (ds : List Char) : Nat :=
  ds.foldl (fun a c => a * 10 + (c.toNat - 48)) 0

/-- Parse a nonempty digit run into a natural number. -/
def parseNat (l : List Char) : Option (Nat × List Char) :=
  match takeDigits l with
  | ([], _) => none
  | (ds, r) => some (digitsToNat ds, r)

/-- The value of one hexadecimal digit character. -/
def hexVal (c : Char) : Option Nat :=
  if digitB c then some (c.toNat - 48)
  else if decide (97 ≤ c.toNat ∧ c.toNat ≤ 102) then some (c.toNat - 87)
  else if decide (65 ≤ c.toNat ∧ c.toNat ≤ 70) then some (c.toNat - 55)
  else none

/-- Decode a single-character escape. -/
def escDecode (e : Char) : Option Char :=
  if e = '"' then some '"'
  else if e = '\\' then some '\\'
  else if e = '/' then some '/'
  else if e = 'n' then some '\n'
  else if e = 't' then some '\t'
  else if e = 'r' then some '\r'
  else if e = 'b' then some '\x08'
  else if e = 'f' then some '\x0c'
  else none

/-- Modelled from the spec: parse the body of a JSON string literal after the
opening quote, returning the decoded characters and the input after the
closing quote. -/
def parseStrBody : List Char → Option (List Char × List Char)
  | [] => none
  | c :: t =>
    if c = '"' then some ([], t)
    else if c = '\\' then
      match t with
      | [] => none
      | e :: t2 =>
        if e = 'u' then
          match t2 with
          | h1 :: h2 :: h3 :: h4 :: t3 =>
            match hexVal h1, hexVal h2, hexVal h3, hexVal h4 with
            | some a, some b, some c2, some d =>
              (parseStrBody t3).map fun p => (Char.ofNat (((a * 16 + b) * 16 + c2) * 16 + d) :: p.1, p.2)
            | _, _, _, _ => none
          | _ => none
        else
          match escDecode e with
          | some d => (parseStrBody t2).map fun p => (d :: p.1, p.2)
          | none => none
    else if c.toNat < 32 then none
    else (parseStrBody t).map fun p => (c :: p.1, p.2)

mutual

/-- Modelled from the spec: the standard recursive-descent JSON value parser,
indexed by fuel; returns the parsed value and the unconsumed input. -/
def parseVal : Nat → List Char → Option (JVal × List Char)
  | 0, _ => none
  | fz + 1, l =>
    match skipWs l with
    | [] => none
    | c :: t =>
      if c = 'n' then
        match t with
        | 'u' :: 'l' :: 'l' :: r => some (.null, r)
        | _ => none
      else if c = 't' then
        match t with
        | 'r' :: 'u' :: 'e' :: r => some (.bool true, r)
        | _ => none
      else if c = 'f' then
        match t with
        | 'a' :: 'l' :: 's' :: 'e' :: r => some (.bool false, r)
        | _ => none
      else if c = '"' then
        (parseStrBody t).map fun p => (.str (String.mk p.1), p.2)
      else if c = '-' then
        (parseNat t).map fun p => (.num (-(p.1 : Int)), p.2)
      else if digitB c then
        (parseNat (c :: t)).map fun p => (.num (p.1 : Int), p.2)
      else if c = '[' then
        match skipWs t with
        | ']' :: r => some (.arr [], r)
        | t2 => (parseElems fz t2).map fun p => (.arr p.1, p.2)
      else if c = '\x7b' then
        match skipWs t with
        | '\x7d' :: r => some (.obj [], r)
        | t2 => (parseMembers fz t2).map fun p => (.obj (buildObj p.1), p.2)
      else none

/-- Parse `value (',' value)* ']'` for a nonempty array. -/
def parseElems : Nat → List Char → Option (List JVal × List Char)
  | 0, _ => none
  | fz + 1, l =>
    match parseVal fz l with
    | none => none
    | some (v, r) =>
      match skipWs r with
      | ',' :: r2 => (parseElems fz r2).map fun p => (v :: p.1, p.2)
      | ']' :: r2 => some ([v], r2)
      | _ => none

/-- Parse `member (',' member)* '}'` for a nonempty object, keeping the raw
member list in text order. -/
def parseMembers : Nat → List Char → Option (List (String × JVal) × List Char)
  | 0, _ => none
  | fz + 1, l =>
    match skipWs l with
    | '"' :: t =>
      match parseStrBody t with
      | none => none
      | some (k, r) =>
        match skipWs r with
        | ':' :: r2 =>
          match parseVal fz r2 with
          | none => none
          | some (v, r3) =>
            match skipWs r3 with
            | ',' :: r4 => (parseMembers fz r4).map fun p => ((String.mk k, v) :: p.1, p.2)
            | '\x7d' :: r4 => some ([(String.mk k, v)], r4)
            | _ => none
        | _ => none
    | _ => none

end

/-- The single error kind of the host JSON parser surfaced to callers. -/
inductive JsonError where
  | parseErr
deriving DecidableEq

/-- Modelled from the spec: the host JSON.parse — parse one value surrounded by
optional whitespace, fail on anything else. -/
def JSONparse (s : String) : Except JsonError JVal :=
  match parseVal (s.length + 1) s.data with
  | some (v, r) =>
    match skipWs r with
    | [] => .ok v
    | _ => .error .parseErr
  | none => .error .parseErr

/-- Embedding of the source function `getJSON(obj)`: delegate to the standard
serialization. -/
def getJSON (v : JVal) : String :=
  String.mk (encVal v)

/-- The decimal string of a natural number. -/
def natStr (n : Nat) : String :=
  String.mk (natDigits n)

/-- Modelled from the spec: the own enumerable properties `Object.assign`
copies from a parsed value — the members of an object, the indexed elements of
an array or a string, nothing for other primitives. -/
def ownProps : JVal → List (String × JVal)
  | .obj fs => fs
  | .arr xs => xs.enum.map fun p => (natStr p.1, p.2)
  | .str s => s.data.enum.map fun p => (natStr p.1, JVal.str (String.mk [p.2]))
  | _ => []

/-- The result of `fromJSON`: a fresh object whose prototype is the supplied
descriptor (carrying its method set unchanged) and whose own fields were
copied from the parsed value. -/
structure JSObj (α : Type) where
  proto : α
  fields : List (String × JVal)

/-- Embedding of the source function `fromJSON(proto, json)`: build a fresh
object on the supplied prototype, parse the text (a parse failure propagates
to the caller unchecked), and copy the parsed own fields onto the fresh
object. -/
def fromJSON {α : Type} (proto : α) (json : String) : Except JsonError (JSObj α) :=
  match JSONparse json with
  | .error e => .error e
  | .ok v => .ok { proto := proto, fields := ownProps v }

/-- Boolean error test for an Except value. -/
def isErrB {ε α : Type} (e : Except ε α) : Bool :=
  match e with
  | .error _ => true
  | .ok _ => false

/-! Helper lemmas about builder chains. -/

theorem applyOp_ok_elOc {b b2 : CSSB} {o : Op} (h : applyOp b o = .ok b2) :
    b2.elOc = (b.elOc || isElemOp o) := by
  cases o <;>
    simp only [applyOp, CSSB.element, CSSB.id, CSSB.«class», CSSB.attr, CSSB.pseudoClass,
      CSSB.pseudoElement, isElemOp] at h ⊢ <;>
    split_ifs at h <;> simp_all <;> subst h <;> simp_all

theorem applyOp_ok_prev {b b2 : CSSB} {o : Op} (h : applyOp b o = .ok b2) :
    b2.prev ≠ "" := by
  cases o <;>
    simp only [applyOp, CSSB.element, CSSB.id, CSSB.«class», CSSB.attr, CSSB.pseudoClass,
      CSSB.pseudoElement] at h <;>
    split_ifs at h <;> simp_all <;> subst h <;> simp_all

theorem runFrom_ok_elOc : ∀ (ops : List Op) (b b2 : CSSB), runFrom b ops = .ok b2 →
    b2.elOc = (b.elOc || hasElement ops)
  | [], b, b2, h => by
    simp only [runFrom, Except.ok.injEq] at h
    subst h
    simp [hasElement]
  | o :: t, b, b2, h => by
    simp only [runFrom] at h
    cases ha : applyOp b o with
    | error e => rw [ha] at h; exact absurd h (by simp)
    | ok bm =>
      rw [ha] at h
      have h1 := runFrom_ok_elOc t bm b2 h
      have h2 := applyOp_ok_elOc ha
      rw [h1, h2]
      cases o <;> simp [hasElement, isElemOp, Bool.or_assoc]

theorem runFrom_ok_prev : ∀ (ops : List Op) (b b2 : CSSB), ops ≠ [] →
    runFrom b ops = .ok b2 → b2.prev ≠ ""
  | [], _, _, hne, _ => absurd rfl hne
  | o :: t, b, b2, _, h => by
    simp only [runFrom] at h
    cases ha : applyOp b o with
    | error e => rw [ha] at h; exact absurd h (by simp)
    | ok bm =>
      rw [ha] at h
      cases t with
      | nil =>
        simp only [runFrom, Except.ok.injEq] at h
        subst h
        exact applyOp_ok_prev ha
      | cons o2 t2 => exact runFrom_ok_prev (o2 :: t2) bm b2 (by simp) h

/-! Claim theorems for the selector builder. -/

/-- Claim C1, counterexample: the claim says class() after pseudoClass() must
fail with the OutOfOrder error, but on the code the chain
pseudoClass('hover').class('active') succeeds and appends both fragments. -/
theorem C1_counterexample :
    (cssSelectorBuilder.pseudoClass "hover").bind (fun b => b.«class» "active")
      = Except.ok { total := ":hover.active", prev := "class",
                    elOc := false, idOc := false, pElOc := false } := rfl

/-- Claim C1 (amended): each add-operation validates only against the
immediately preceding category marker, not the whole emitted rank sequence:
element order-fails exactly when the marker is nonempty (and no duplicate),
id exactly after class or pseudo-element (and no duplicate), class exactly
after attribute, attr exactly after pseudo-class, pseudoClass exactly after
pseudo-element, and pseudoElement never order-fails. -/
theorem C1_adjacent_order_checks (b : CSSB) (v : String) :
    orderErrB (b.element v) = (!b.elOc && !(b.prev == "")) ∧
    orderErrB (b.id v) = (!b.idOc && (b.prev == "class" || b.prev == "pseudoElem")) ∧
    orderErrB (b.«class» v) = (b.prev == "attr") ∧
    orderErrB (b.attr v) = (b.prev == "pseudoClass") ∧
    orderErrB (b.pseudoClass v) = (b.prev == "pseudoElem") ∧
    orderErrB (b.pseudoElement v) = false := by
  refine ⟨?_, ?_, ?_, ?_, ?_, ?_⟩ <;>
    simp only [CSSB.element, CSSB.id, CSSB.«class», CSSB.attr, CSSB.pseudoClass,
      CSSB.pseudoElement] <;>
    split_ifs <;> simp_all [orderErrB]

/-- Claim C2, counterexample: the claim says attr(x).id(y) must fail with the
OutOfOrder error, but on the code the chain attr('x').id('y') succeeds. -/
theorem C2_counterexample :
    (cssSelectorBuilder.attr "x").bind (fun b => b.id "y")
      = Except.ok { total := "[x]#y", prev := "id",
                    elOc := false, idOc := true, pElOc := false } := rfl

/-- Claim C2 (amended): id(value) fails with the OutOfOrder error exactly when
the last-added category is class or pseudo-element (and id is not already
present); after an attribute or a pseudo-class fragment, id succeeds. -/
theorem C2_id_order_rule (b : CSSB) (v : String) :
    orderErrB (b.id v) = (!b.idOc && (b.prev == "class" || b.prev == "pseudoElem")) ∧
    isOkB ((cssSelectorBuilder.attr "x").bind fun b2 => b2.id "y") = true ∧
    isOkB ((cssSelectorBuilder.pseudoClass "x").bind fun b2 => b2.id "y") = true := by
  refine ⟨?_, rfl, rfl⟩
  simp only [CSSB.id]
  split_ifs <;> simp_all [orderErrB]

/-- Claim C3: no builder method mutates its receiver. In the heap model the
spread operator only allocates: a successful add-operation leaves every
existing object (in particular the receiver, hence its stringify text)
unchanged, returns a fresh reference, and the receiver can be reused to
derive another selector with the same result; combine likewise leaves the
receiver and both combined selectors unchanged. -/
theorem C3_no_mutation :
    (∀ (h : Heap) (r : Nat) (b : CSSB) (o : Op) (h2 : Heap) (r2 : Nat),
        h[r]? = some b → applyOpH h r o = some (.ok (h2, r2)) →
        h2.take h.length = h ∧ r2 = h.length ∧ h2[r]? = some b ∧
          applyOpH h2 r o = some ((applyOp b o).map (alloc h2))) ∧
    (∀ (h : Heap) (r a c : Nat) (comb : String) (b s1 s2 : CSSB) (h2 : Heap) (r2 : Nat),
        h[r]? = some b → h[a]? = some s1 → h[c]? = some s2 →
        combineH h r a c comb = some (h2, r2) →
        h2.take h.length = h ∧ r2 = h.length ∧
          h2[r2]? = some (b.combine s1 comb s2) ∧
          h2[r]? = some b ∧ h2[a]? = some s1 ∧ h2[c]? = some s2) := by
  constructor
  · intro h r b o h2 r2 hb hs
    rw [applyOpH, hb, Option.map_some'] at hs
    cases ha : applyOp b o with
    | error e => rw [ha] at hs; exact absurd hs (by simp [Except.map])
    | ok bm =>
      rw [ha] at hs
      simp only [Except.map, alloc, Option.some.injEq, Except.ok.injEq, Prod.mk.injEq] at hs
      obtain ⟨hh2, hr2⟩ := hs
      subst hh2; subst hr2
      have hr : r < h.length := (List.getElem?_eq_some.mp hb).1
      refine ⟨List.take_left h [bm], rfl, ?_, ?_⟩
      · rw [List.getElem?_append_left hr]; exact hb
      · rw [applyOpH, List.getElem?_append_left hr, hb, Option.map_some', ha]
  · intro h r a c comb b s1 s2 h2 r2 hb ha hc hs
    rw [combineH, hb, ha, hc] at hs
    simp only [alloc, Option.some.injEq, Prod.mk.injEq] at hs
    obtain ⟨hh2, hr2⟩ := hs
    subst hh2; subst hr2
    have hr : r < h.length := (List.getElem?_eq_some.mp hb).1
    have hra : a < h.length := (List.getElem?_eq_some.mp ha).1
    have hrc : c < h.length := (List.getElem?_eq_some.mp hc).1
    refine ⟨List.take_left h _, rfl, ?_, ?_, ?_, ?_⟩
    · rw [List.getElem?_concat_length]
    · rw [List.getElem?_append_left hr]; exact hb
    · rw [List.getElem?_append_left hra]; exact ha
    · rw [List.getElem?_append_left hrc]; exact hc

/-- Witness for C3: a class() call on the facade allocated at reference 0
leaves the old heap intact, allocates at reference 1, and can be replayed. -/
theorem C3_witness :
    (([cssSelectorBuilder,
        { total := ".x", prev := "class", elOc := false, idOc := false, pElOc := false }] : Heap).take 1
          = [cssSelectorBuilder] ∧
      (1 : Nat) = 1 ∧
      ([cssSelectorBuilder,
        { total := ".x", prev := "class", elOc := false, idOc := false, pElOc := false }] : Heap)[0]?
          = some cssSelectorBuilder ∧
      applyOpH [cssSelectorBuilder,
        { total := ".x", prev := "class", elOc := false, idOc := false, pElOc := false }] 0 (Op.classOp "x")
          = some ((applyOp cssSelectorBuilder (Op.classOp "x")).map
              (alloc [cssSelectorBuilder,
                { total := ".x", prev := "class", elOc := false, idOc := false, pElOc := false }]))) ∧
    (([cssSelectorBuilder,
        { total := " + ", prev := "", elOc := false, idOc := false, pElOc := false }] : Heap).take 1
          = [cssSelectorBuilder] ∧
      (1 : Nat) = 1 ∧
      ([cssSelectorBuilder,
        { total := " + ", prev := "", elOc := false, idOc := false, pElOc := false }] : Heap)[1]?
          = some (cssSelectorBuilder.combine cssSelectorBuilder "+" cssSelectorBuilder) ∧
      ([cssSelectorBuilder,
        { total := " + ", prev := "", elOc := false, idOc := false, pElOc := false }] : Heap)[0]?
          = some cssSelectorBuilder ∧
      ([cssSelectorBuilder,
        { total := " + ", prev := "", elOc := false, idOc := false, pElOc := false }] : Heap)[0]?
          = some cssSelectorBuilder ∧
      ([cssSelectorBuilder,
        { total := " + ", prev := "", elOc := false, idOc := false, pElOc := false }] : Heap)[0]?
          = some cssSelectorBuilder) :=
  ⟨C3_no_mutation.1 [cssSelectorBuilder] 0 cssSelectorBuilder (Op.classOp "x")
      [cssSelectorBuilder,
        { total := ".x", prev := "class", elOc := false, idOc := false, pElOc := false }] 1 rfl rfl,
    C3_no_mutation.2 [cssSelectorBuilder] 0 0 0 "+"
      cssSelectorBuilder cssSelectorBuilder cssSelectorBuilder
      [cssSelectorBuilder,
        { total := " + ", prev := "", elOc := false, idOc := false, pElOc := false }] 1
      rfl rfl rfl rfl⟩

/-- Claim C4: combine concatenates the two selector texts around the
combinator token with single spaces, verbatim, for every pair of selectors
and every token; it is a total function (no check, no failure) and performs no
re-validation; and the concrete spec example yields div#main + table#data. -/
theorem C4_combine_text :
    (∀ (b s1 s2 : CSSB) (comb : String),
        (b.combine s1 comb s2).stringify = s1.total ++ " " ++ comb ++ " " ++ s2.total) ∧
    ((cssSelectorBuilder.element "div").bind (fun a => (a.id "main").bind (fun a2 =>
        (cssSelectorBuilder.element "table").bind (fun c => (c.id "data").bind (fun c2 =>
          Except.ok ((cssSelectorBuilder.combine a2 "+" c2).stringify))))))
      = Except.ok "div#main + table#data" :=
  ⟨fun _ _ _ _ => rfl, rfl⟩

/-- Claim C5: on every successful chain, element(name) fails with the
duplicate error when the chain already contains an element add, fails with
the order error when the chain is nonempty without an element add, and on the
empty chain succeeds and appends the bare name. -/
theorem C5_element_rules (ops : List Op) (b : CSSB) (v : String)
    (hb : runOps ops = .ok b) :
    (hasElement ops = true → b.element v = .error .duplicate) ∧
    (hasElement ops = false → ops ≠ [] → b.element v = .error .order) ∧
    (ops = [] → b.element v
        = .ok { total := v, prev := "elem", elOc := true, idOc := false, pElOc := false }) := by
  refine ⟨?_, ?_, ?_⟩
  · intro hel
    have h1 := runFrom_ok_elOc ops cssSelectorBuilder b hb
    rw [hel] at h1
    simp only [cssSelectorBuilder, Bool.false_or] at h1
    simp [CSSB.element, h1]
  · intro hel hne
    have h1 := runFrom_ok_elOc ops cssSelectorBuilder b hb
    rw [hel] at h1
    simp only [cssSelectorBuilder, Bool.or_false] at h1
    have h2 := runFrom_ok_prev ops cssSelectorBuilder b hne hb
    simp [CSSB.element, h1, h2]
  · intro he
    subst he
    simp only [runOps, runFrom, Except.ok.injEq] at hb
    subst hb
    rfl

/-- Witness for C5: the chain id('x') is nonempty without an element add, so a
subsequent element('a') fails with the order error. -/
theorem C5_witness :
    (hasElement [Op.idOp "x"] = true →
      ({ total := "#x", prev := "id", elOc := false, idOc := true, pElOc := false } : CSSB).element "a"
        = .error .duplicate) ∧
    (hasElement [Op.idOp "x"] = false → [Op.idOp "x"] ≠ [] →
      ({ total := "#x", prev := "id", elOc := false, idOc := true, pElOc := false } : CSSB).element "a"
        = .error .order) ∧
    ([Op.idOp "x"] = [] →
      ({ total := "#x", prev := "id", elOc := false, idOc := true, pElOc := false } : CSSB).element "a"
        = .ok { total := "a", prev := "elem", elOc := true, idOc := false, pElOc := false }) :=
  C5_element_rules [Op.idOp "x"] _ "a" rfl

/-- Claim C7: the Rectangle built from (w, h) stores exactly those fields, its
area accessor returns w * h, and the accessor recomputes from the current
field values, so updating a field is reflected in the next call. -/
theorem C7_rectangle (w h : Int) :
    (Rectangle.mk w h).width = w ∧
    (Rectangle.mk w h).height = h ∧
    (Rectangle.mk w h).getArea = w * h ∧
    (∀ w2 : Int, ({ Rectangle.mk w h with width := w2 }).getArea = w2 * h) ∧
    (∀ h2 : Int, ({ Rectangle.mk w h with height := h2 }).getArea = w * h2) :=
  ⟨rfl, rfl, rfl, fun _ => rfl, fun _ => rfl⟩

/-- Claim C9: combine copies the occurrence flags and the last-category marker
of its receiver (for a facade call: all clear), not those of the combined
selectors; hence every add-operation on the combined result succeeds and
appends its fragment to the end of the combined text. -/
theorem C9_combine_keeps_receiver_flags :
    (∀ (b s1 s2 : CSSB) (c : String),
        (b.combine s1 c s2).prev = b.prev ∧ (b.combine s1 c s2).elOc = b.elOc ∧
        (b.combine s1 c s2).idOc = b.idOc ∧ (b.combine s1 c s2).pElOc = b.pElOc) ∧
    (cssSelectorBuilder.prev = "" ∧ cssSelectorBuilder.elOc = false ∧
      cssSelectorBuilder.idOc = false ∧ cssSelectorBuilder.pElOc = false) ∧
    (∀ (s1 s2 : CSSB) (c : String) (o : Op),
        (applyOp (cssSelectorBuilder.combine s1 c s2) o).map CSSB.stringify
          = .ok ((cssSelectorBuilder.combine s1 c s2).total ++ fragText o)) := by
  refine ⟨fun b s1 s2 c => ⟨rfl, rfl, rfl, rfl⟩, ⟨rfl, rfl, rfl, rfl⟩, fun s1 s2 c o => ?_⟩
  cases o <;>
    simp [applyOp, CSSB.element, CSSB.id, CSSB.«class», CSSB.attr, CSSB.pseudoClass,
      CSSB.pseudoElement, CSSB.combine, CSSB.stringify, fragText, cssSelectorBuilder,
      Except.map, String.append_assoc]

/-- Claim C10: in element() and id() the duplicate check runs before the order
check, so a state with both violations fails with the duplicate error; in
particular element('a').class('c').element('b') throws duplicate, not order. -/
theorem C10_duplicate_precedence :
    (∀ (b : CSSB) (v : String), b.elOc = true → b.element v = .error .duplicate) ∧
    (∀ (b : CSSB) (v : String), b.idOc = true → b.id v = .error .duplicate) ∧
    runOps [Op.elementOp "a", Op.classOp "c", Op.elementOp "b"] = .error .duplicate := by
  refine ⟨fun b v hb => ?_, fun b v hb => ?_, rfl⟩
  · simp [CSSB.element, hb]
  · simp [CSSB.id, hb]

/-- Witness for C10: concrete states where both the duplicate and the order
condition hold still fail with the duplicate error. -/
theorem C10_witness :
    ({ total := "a.c", prev := "class", elOc := true, idOc := false, pElOc := false } : CSSB).element "b"
        = .error .duplicate ∧
    ({ total := "#x.c", prev := "class", elOc := false, idOc := true, pElOc := false } : CSSB).id "y"
        = .error .duplicate :=
  ⟨C10_duplicate_precedence.1 _ "b" rfl, C10_duplicate_precedence.2.1 _ "y" rfl⟩

/-! Helper lemmas for the JSON model: characters and digits. -/

theorem digitB_bounds {c : Char} (h : digitB c = true) : 48 ≤ c.toNat ∧ c.toNat ≤ 57 := by
  simpa [digitB] using h

theorem digitChar_digit : ∀ k, k < 10 → digitB (digitChar k) = true ∧ (digitChar k).toNat = 48 + k := by
  decide

theorem hexVal_hexDigitChar : ∀ k, k < 16 → hexVal (hexDigitChar k) = some k := by
  decide

theorem skipWs_not_ws {c : Char} (l : List Char) (h : isWsC c = false) :
    skipWs (c :: l) = c :: l := by
  simp [skipWs, h]

theorem digitB_special {c : Char} (h : digitB c = true) :
    isWsC c = false ∧ c ≠ 'n' ∧ c ≠ 't' ∧ c ≠ 'f' ∧ c ≠ '"' ∧ c ≠ '-' ∧ c ≠ '[' ∧
      c ≠ '\x7b' ∧ c ≠ ']' ∧ c ≠ '\x7d' ∧ c ≠ ',' ∧ c ≠ ':' := by
  have hb := digitB_bounds h
  refine ⟨?_, ?_, ?_, ?_, ?_, ?_, ?_, ?_, ?_, ?_, ?_, ?_⟩
  · simp only [isWsC, decide_eq_false_iff_not]
    rintro (rfl | rfl | rfl | rfl) <;> exact absurd hb (by decide)
  all_goals (rintro rfl; exact absurd hb (by decide))

/-! Digit-printer correctness. -/

theorem natDigitsAux_spec : ∀ (fuel m : Nat), m < fuel →
    (natDigitsAux fuel m).all digitB = true ∧ natDigitsAux fuel m ≠ [] ∧
      digitsToNat (natDigitsAux fuel m) = m
  | 0, m, h => absurd h (by omega)
  | fuel + 1, m, h => by
    by_cases hm : m < 10
    · have hd := digitChar_digit m hm
      refine ⟨?_, ?_, ?_⟩
      · simp [natDigitsAux, hm, hd.1]
      · simp [natDigitsAux, hm]
      · simp [natDigitsAux, hm, digitsToNat, hd.2]
    · have hdiv : m / 10 < m := Nat.div_lt_self (by omega) (by omega)
      have ih := natDigitsAux_spec fuel (m / 10) (by omega)
      have hmod : m % 10 < 10 := Nat.mod_lt _ (by omega)
      have hd := digitChar_digit (m % 10) hmod
      refine ⟨?_, ?_, ?_⟩
      · simp [natDigitsAux, hm, List.all_append, ih.1, hd.1]
      · simp [natDigitsAux, hm]
      · have hfold : digitsToNat (natDigitsAux fuel (m / 10) ++ [digitChar (m % 10)])
            = digitsToNat (natDigitsAux fuel (m / 10)) * 10 + ((digitChar (m % 10)).toNat - 48) := by
          simp [digitsToNat]
        have hunf : natDigitsAux (fuel + 1) m
            = natDigitsAux fuel (m / 10) ++ [digitChar (m % 10)] := by
          simp [natDigitsAux, hm]
        rw [hunf, hfold, ih.2.2, hd.2]
        omega

theorem natDigits_all (m : Nat) : (natDigits m).all digitB = true :=
  (natDigitsAux_spec (m + 1) m (by omega)).1

theorem natDigits_ne (m : Nat) : natDigits m ≠ [] :=
  (natDigitsAux_spec (m + 1) m (by omega)).2.1

theorem digitsToNat_natDigits (m : Nat) : digitsToNat (natDigits m) = m :=
  (natDigitsAux_spec (m + 1) m (by omega)).2.2

theorem natDigits_cons (m : Nat) : ∃ c t, natDigits m = c :: t ∧ digitB c = true := by
  cases hne : natDigits m with
  | nil => exact absurd hne (natDigits_ne m)
  | cons c t =>
    refine ⟨c, t, rfl, ?_⟩
    have hall := natDigits_all m
    rw [hne] at hall
    simp only [List.all_cons, Bool.and_eq_true] at hall
    exact hall.1

theorem takeDigits_append : ∀ (ds rest : List Char), ds.all digitB = true →
    headDigitB rest = false → takeDigits (ds ++ rest) = (ds, rest)
  | [], rest, _, hr => by
    cases rest with
    | nil => rfl
    | cons c t =>
      simp only [headDigitB] at hr
      simp [takeDigits, hr]
  | d :: ds, rest, hall, hr => by
    simp only [List.all_cons, Bool.and_eq_true] at hall
    simp [takeDigits, hall.1, takeDigits_append ds rest hall.2 hr]

theorem parseNat_natDigits (m : Nat) (rest : List Char) (hr : headDigitB rest = false) :
    parseNat (natDigits m ++ rest) = some (m, rest) := by
  have h1 := takeDigits_append (natDigits m) rest (natDigits_all m) hr
  obtain ⟨c, t, hct, _⟩ := natDigits_cons m
  unfold parseNat
  rw [h1, hct]
  have := digitsToNat_natDigits m
  rw [hct] at this
  simp [this]

/-! String-literal escape round trip. -/

theorem parseStrBody_escAll : ∀ (cs rest : List Char),
    parseStrBody (escAll cs ++ '"' :: rest) = some (cs, rest)
  | [], rest => by
    show parseStrBody ('"' :: rest) = some ([], rest)
    rw [parseStrBody.eq_def]
    simp
  | c :: cs, rest => by
    have ih := parseStrBody_escAll cs rest
    have hesc : escAll (c :: cs) ++ '"' :: rest = escChar c ++ (escAll cs ++ '"' :: rest) := by
      simp [escAll, List.append_assoc]
    rw [hesc]
    by_cases h1 : c = '"'
    · subst h1
      show parseStrBody ('\\' :: '"' :: (escAll cs ++ '"' :: rest)) = some ('"' :: cs, rest)
      rw [parseStrBody.eq_def]
      simp [escDecode, ih]
    by_cases h2 : c = '\\'
    · subst h2
      show parseStrBody ('\\' :: '\\' :: (escAll cs ++ '"' :: rest)) = some ('\\' :: cs, rest)
      rw [parseStrBody.eq_def]
      simp [escDecode, ih]
    by_cases h3 : c = '\n'
    · subst h3
      show parseStrBody ('\\' :: 'n' :: (escAll cs ++ '"' :: rest)) = some ('\n' :: cs, rest)
      rw [parseStrBody.eq_def]
      simp [escDecode, ih]
    by_cases h4 : c = '\t'
    · subst h4
      show parseStrBody ('\\' :: 't' :: (escAll cs ++ '"' :: rest)) = some ('\t' :: cs, rest)
      rw [parseStrBody.eq_def]
      simp [escDecode, ih]
    by_cases h5 : c = '\r'
    · subst h5
      show parseStrBody ('\\' :: 'r' :: (escAll cs ++ '"' :: rest)) = some ('\r' :: cs, rest)
      rw [parseStrBody.eq_def]
      simp [escDecode, ih]
    by_cases h6 : c = '\x08'
    · subst h6
      show parseStrBody ('\\' :: 'b' :: (escAll cs ++ '"' :: rest)) = some ('\x08' :: cs, rest)
      rw [parseStrBody.eq_def]
      simp [escDecode, ih]
    by_cases h7 : c = '\x0c'
    · subst h7
      show parseStrBody ('\\' :: 'f' :: (escAll cs ++ '"' :: rest)) = some ('\x0c' :: cs, rest)
      rw [parseStrBody.eq_def]
      simp [escDecode, ih]
    by_cases h8 : c.toNat < 32
    · have hdiv : c.toNat / 16 < 16 := by omega
      have hmod : c.toNat % 16 < 16 := Nat.mod_lt _ (by omega)
      have hv1 := hexVal_hexDigitChar (c.toNat / 16) hdiv
      have hv2 := hexVal_hexDigitChar (c.toNat % 16) hmod
      have he : escChar c
          = ['\\', 'u', '0', '0', hexDigitChar (c.toNat / 16), hexDigitChar (c.toNat % 16)] := by
        simp [escChar, h1, h2, h3, h4, h5, h6, h7, h8]
      rw [he]
      show parseStrBody ('\\' :: 'u' :: '0' :: '0' :: hexDigitChar (c.toNat / 16)
            :: hexDigitChar (c.toNat % 16) :: (escAll cs ++ '"' :: rest))
          = some (c :: cs, rest)
      rw [parseStrBody.eq_def]
      simp only [reduceIte, reduceCtorEq]
      rw [show hexVal '0' = some 0 from rfl, hv1, hv2]
      simp [ih]
      rw [show c.toNat / 16 * 16 + c.toNat % 16 = c.toNat from by omega, Char.ofNat_toNat]
    · have h9 : ¬ c.toNat < 32 := h8
      have he : escChar c = [c] := by
        simp [escChar, h1, h2, h3, h4, h5, h6, h7, h9]
      rw [he]
      show parseStrBody (c :: (escAll cs ++ '"' :: rest)) = some (c :: cs, rest)
      rw [parseStrBody.eq_def]
      simp [h1, h2, h9, ih]

/-! Object building with last-wins assignment. -/

theorem nodupB_iff : ∀ l : List String, nodupB l = true ↔ l.Nodup
  | [] => by simp [nodupB]
  | k :: t => by
    simp [nodupB, nodupB_iff t, List.nodup_cons]

theorem setField_fresh : ∀ (acc : List (String × JVal)) (k : String) (v : JVal),
    k ∉ acc.map Prod.fst → setField acc k v = acc ++ [(k, v)]
  | [], _, _, _ => rfl
  | (k2, v2) :: t, k, v, h => by
    simp only [List.map_cons, List.mem_cons, not_or] at h
    rw [setField, if_neg (fun hh => h.1 hh.symm), setField_fresh t k v h.2]
    rfl

theorem buildObjAux : ∀ (fs acc : List (String × JVal)),
    (acc.map Prod.fst ++ fs.map Prod.fst).Nodup →
    fs.foldl (fun a p => setField a p.1 p.2) acc = acc ++ fs
  | [], acc, _ => by simp
  | (k, v) :: t, acc, h => by
    have hparts := List.nodup_append.mp h
    have hknotacc : k ∉ acc.map Prod.fst := fun hk => hparts.2.2 hk (by simp)
    have hstep : setField acc k v = acc ++ [(k, v)] := setField_fresh acc k v hknotacc
    have hperm : ((acc ++ [(k, v)]).map Prod.fst ++ t.map Prod.fst).Nodup := by
      have : (acc ++ [(k, v)]).map Prod.fst ++ t.map Prod.fst
          = acc.map Prod.fst ++ ((k, v) :: t).map Prod.fst := by
        simp
      rw [this]
      exact h
    have ih := buildObjAux t (acc ++ [(k, v)]) hperm
    simp only [List.foldl_cons, hstep, ih, List.append_assoc, List.singleton_append]

theorem buildObj_nodup (fs : List (String × JVal)) (h : (fs.map Prod.fst).Nodup) :
    buildObj fs = fs := by
  have := buildObjAux fs [] (by simpa using h)
  simpa [buildObj] using this

/-! One-step dispatch lemmas for the value parser, by leading token. -/

theorem parseVal_null (fz : Nat) (X : List Char) :
    parseVal (fz + 1) ('n' :: 'u' :: 'l' :: 'l' :: X) = some (.null, X) := by
  rw [parseVal.eq_def]
  dsimp only
  rw [skipWs_not_ws _ (by decide)]
  simp

theorem parseVal_true (fz : Nat) (X : List Char) :
    parseVal (fz + 1) ('t' :: 'r' :: 'u' :: 'e' :: X) = some (.bool true, X) := by
  rw [parseVal.eq_def]
  dsimp only
  rw [skipWs_not_ws _ (by decide)]
  simp

theorem parseVal_false (fz : Nat) (X : List Char) :
    parseVal (fz + 1) ('f' :: 'a' :: 'l' :: 's' :: 'e' :: X) = some (.bool false, X) := by
  rw [parseVal.eq_def]
  dsimp only
  rw [skipWs_not_ws _ (by decide)]
  simp

theorem parseVal_quote (fz : Nat) (X : List Char) :
    parseVal (fz + 1) ('"' :: X)
      = (parseStrBody X).map fun p => (JVal.str (String.mk p.1), p.2) := by
  rw [parseVal.eq_def]
  dsimp only
  rw [skipWs_not_ws _ (by decide)]
  simp

theorem parseVal_minus (fz : Nat) (X : List Char) :
    parseVal (fz + 1) ('-' :: X)
      = (parseNat X).map fun p => (JVal.num (-(p.1 : Int)), p.2) := by
  rw [parseVal.eq_def]
  dsimp only
  rw [skipWs_not_ws _ (by decide)]
  simp

theorem parseVal_digit (fz : Nat) {c : Char} (X : List Char) (h : digitB c = true) :
    parseVal (fz + 1) (c :: X)
      = (parseNat (c :: X)).map fun p => (JVal.num (p.1 : Int), p.2) := by
  obtain ⟨hw, hn, ht, hf, hq, hm, hlb, hlbr, _, _, _, _⟩ := digitB_special h
  rw [parseVal.eq_def]
  dsimp only
  rw [skipWs_not_ws _ hw]
  simp [hn, ht, hf, hq, hm, h, hlb, hlbr]

theorem parseVal_lbracket_empty (fz : Nat) (X : List Char) :
    parseVal (fz + 1) ('[' :: ']' :: X) = some (.arr [], X) := by
  rw [parseVal.eq_def]
  dsimp only
  rw [skipWs_not_ws _ (by decide)]
  simp [skipWs_not_ws X (show isWsC ']' = false from rfl), show digitB '[' = false from rfl]

theorem parseVal_lbracket_cons (fz : Nat) {c : Char} (X : List Char)
    (hw : isWsC c = false) (hc : c ≠ ']') :
    parseVal (fz + 1) ('[' :: c :: X)
      = (parseElems fz (c :: X)).map fun p => (JVal.arr p.1, p.2) := by
  rw [parseVal.eq_def]
  dsimp only
  rw [skipWs_not_ws _ (by decide)]
  simp [skipWs_not_ws X hw, show digitB '[' = false from rfl]
  split
  · next r heq =>
    rw [List.cons.injEq] at heq
    exact absurd heq.1 hc
  · rfl

theorem parseVal_lbrace_empty (fz : Nat) (X : List Char) :
    parseVal (fz + 1) ('\x7b' :: '\x7d' :: X) = some (.obj [], X) := by
  rw [parseVal.eq_def]
  dsimp only
  rw [skipWs_not_ws _ (by decide)]
  simp [skipWs_not_ws X (show isWsC '\x7d' = false from rfl), show digitB '\x7b' = false from rfl]

theorem parseVal_lbrace_quote (fz : Nat) (X : List Char) :
    parseVal (fz + 1) ('\x7b' :: '"' :: X)
      = (parseMembers fz ('"' :: X)).map fun p => (JVal.obj (buildObj p.1), p.2) := by
  rw [parseVal.eq_def]
  dsimp only
  rw [skipWs_not_ws _ (by decide)]
  simp [skipWs_not_ws X (show isWsC '"' = false from rfl), show digitB '\x7b' = false from rfl]

/-! Shape of encoder output: first character facts. -/

theorem encVal_head (v : JVal) : ∃ c t, encVal v = c :: t ∧ isWsC c = false ∧
    c ≠ ']' ∧ c ≠ '\x7d' ∧ c ≠ ',' := by
  cases v with
  | null => exact ⟨'n', _, rfl, by decide, by decide, by decide, by decide⟩
  | bool b =>
    cases b with
    | true => exact ⟨'t', _, rfl, by decide, by decide, by decide, by decide⟩
    | false => exact ⟨'f', _, rfl, by decide, by decide, by decide, by decide⟩
  | num i =>
    by_cases hn : i < 0
    · refine ⟨'-', natDigits i.natAbs, ?_, by decide, by decide, by decide, by decide⟩
      show intChars i = _
      simp [intChars, hn]
    · obtain ⟨c, t, hct, hd⟩ := natDigits_cons i.natAbs
      obtain ⟨hw, _, _, _, _, _, _, _, hrb, hrbr, hcm, _⟩ := digitB_special hd
      refine ⟨c, t, ?_, hw, hrb, hrbr, hcm⟩
      show intChars i = _
      simp [intChars, hn, hct]
  | str s => exact ⟨'"', _, rfl, by decide, by decide, by decide, by decide⟩
  | arr xs => exact ⟨'[', _, rfl, by decide, by decide, by decide, by decide⟩
  | obj fs => exact ⟨'\x7b', _, rfl, by decide, by decide, by decide, by decide⟩

theorem encElems_head (x : JVal) (t : List JVal) : ∃ c tl,
    encElems (x :: t) = c :: tl ∧ isWsC c = false ∧ c ≠ ']' := by
  obtain ⟨c, tl, hct, hw, hrb, _, _⟩ := encVal_head x
  cases t with
  | nil => exact ⟨c, tl, hct, hw, hrb⟩
  | cons y t2 =>
    refine ⟨c, tl ++ ',' :: encElems (y :: t2), ?_, hw, hrb⟩
    show encVal x ++ ',' :: encElems (y :: t2) = _
    rw [hct]
    rfl

theorem encFields_head (m : String × JVal) (t : List (String × JVal)) : ∃ tl,
    encFields (m :: t) = '"' :: tl := by
  cases t with
  | nil => exact ⟨_, rfl⟩
  | cons q t2 => exact ⟨_, rfl⟩

/-! Fuel bound: the fuel measure of a value is at most the length of its
encoding, so input length suffices as parser fuel. -/

theorem nf_le_encLen : ∀ n : Nat,
    (∀ v : JVal, sizeOf v < n → nfV v ≤ (encVal v).length) ∧
    (∀ xs : List JVal, sizeOf xs < n → nfElems xs ≤ (encElems xs).length + 1) ∧
    (∀ fs : List (String × JVal), sizeOf fs < n → nfMembers fs ≤ (encFields fs).length + 1)
  | 0 => ⟨fun v h => absurd h (by omega), fun xs h => absurd h (by omega),
      fun fs h => absurd h (by omega)⟩
  | n + 1 => by
    obtain ⟨ihV, ihE, ihM⟩ := nf_le_encLen n
    refine ⟨?_, ?_, ?_⟩
    · intro v hsz
      cases v with
      | null => show 1 ≤ 4; omega
      | bool b => cases b <;> simp [nfV, encVal]
      | num i =>
        show 1 ≤ (intChars i).length
        have hne := natDigits_ne i.natAbs
        have hpos : 0 < (natDigits i.natAbs).length := List.length_pos.mpr hne
        by_cases hn : i < 0 <;> simp [intChars, hn] <;> omega
      | str s =>
        show 1 ≤ ('"' :: (escAll s.data ++ ['"'])).length
        simp
      | arr xs =>
        have hxs : sizeOf xs < n := by
          have := hsz
          simp only [JVal.arr.sizeOf_spec] at this
          omega
        have := ihE xs hxs
        show 1 + nfElems xs ≤ ('[' :: (encElems xs ++ [']'])).length
        simp only [List.length_cons, List.length_append, List.length_singleton]
        omega
      | obj fs =>
        have hfs : sizeOf fs < n := by
          have := hsz
          simp only [JVal.obj.sizeOf_spec] at this
          omega
        have := ihM fs hfs
        show 1 + nfMembers fs ≤ ('\x7b' :: (encFields fs ++ ['\x7d'])).length
        simp only [List.length_cons, List.length_append, List.length_singleton]
        omega
    · intro xs hsz
      cases xs with
      | nil => show 0 ≤ _; omega
      | cons x t =>
        have hx : sizeOf x < n := by
          have := hsz
          simp only [List.cons.sizeOf_spec] at this
          omega
        have hxl := ihV x hx
        cases t with
        | nil =>
          show 1 + nfV x + 0 ≤ (encVal x).length + 1
          omega
        | cons y t2 =>
          have ht : sizeOf (y :: t2) < n := by
            have := hsz
            simp only [List.cons.sizeOf_spec] at this ⊢
            omega
          have htl := ihE (y :: t2) ht
          show 1 + nfV x + nfElems (y :: t2) ≤ (encVal x ++ ',' :: encElems (y :: t2)).length + 1
          simp only [List.length_append, List.length_cons]
          omega
    · intro fs hsz
      cases fs with
      | nil => show 0 ≤ _; omega
      | cons m t =>
        obtain ⟨k, v⟩ := m
        have hv : sizeOf v < n := by
          have := hsz
          simp only [List.cons.sizeOf_spec, Prod.mk.sizeOf_spec] at this
          omega
        have hvl := ihV v hv
        cases t with
        | nil =>
          show 1 + nfV v + 0 ≤ ('"' :: (escAll k.data ++ '"' :: ':' :: encVal v)).length + 1
          simp only [List.length_cons, List.length_append]
          omega
        | cons q t2 =>
          have ht : sizeOf (q :: t2) < n := by
            have := hsz
            simp only [List.cons.sizeOf_spec] at this ⊢
            omega
          have htl := ihM (q :: t2) ht
          show 1 + nfV v + nfMembers (q :: t2)
              ≤ (('"' :: (escAll k.data ++ '"' :: ':' :: encVal v)) ++ ',' :: encFields (q :: t2)).length + 1
          simp only [List.length_append, List.length_cons]
          omega

/-! Whitespace no-ops for the concrete separator characters. -/

theorem skipWs_colon (l : List Char) : skipWs (':' :: l) = ':' :: l :=
  skipWs_not_ws _ (by decide)

theorem skipWs_comma (l : List Char) : skipWs (',' :: l) = ',' :: l :=
  skipWs_not_ws _ (by decide)

theorem skipWs_rbrace (l : List Char) : skipWs ('\x7d' :: l) = '\x7d' :: l :=
  skipWs_not_ws _ (by decide)

theorem skipWs_rbracket (l : List Char) : skipWs (']' :: l) = ']' :: l :=
  skipWs_not_ws _ (by decide)

/-- One step of the member parser on a quote-headed input. -/
theorem parseMembers_quote (fy : Nat) (body : List Char) :
    parseMembers (fy + 1) ('"' :: body)
      = (match parseStrBody body with
         | none => none
         | some (k, r) =>
           match skipWs r with
           | ':' :: r2 =>
             match parseVal fy r2 with
             | none => none
             | some (v, r3) =>
               match skipWs r3 with
               | ',' :: r4 => (parseMembers fy r4).map fun p => ((String.mk k, v) :: p.1, p.2)
               | '\x7d' :: r4 => some ([(String.mk k, v)], r4)
               | _ => none
           | _ => none) := by
  rw [parseMembers.eq_def]
  dsimp only
  rw [skipWs_not_ws _ (by decide)]
  split
  · next t3 heq =>
    rw [List.cons.injEq] at heq
    rw [← heq.2]
  · next hfail =>
    exact absurd rfl (fun hh => hfail body hh)

/-! Round trip: the parser recovers every well-formed value from its
encoding, given enough fuel; by strong induction on the size of the value. -/

theorem enc_parse : ∀ n : Nat,
    (∀ v : JVal, sizeOf v < n → ∀ (fuel : Nat) (rest : List Char),
        nfV v ≤ fuel → plainV v = true → headDigitB rest = false →
        parseVal fuel (encVal v ++ rest) = some (v, rest)) ∧
    (∀ xs : List JVal, sizeOf xs < n → ∀ (fuel : Nat) (rest : List Char),
        nfElems xs ≤ fuel → plainElems xs = true → xs ≠ [] →
        parseElems fuel (encElems xs ++ ']' :: rest) = some (xs, rest)) ∧
    (∀ fs : List (String × JVal), sizeOf fs < n → ∀ (fuel : Nat) (rest : List Char),
        nfMembers fs ≤ fuel → plainMembers fs = true → fs ≠ [] →
        parseMembers fuel (encFields fs ++ '\x7d' :: rest) = some (fs, rest))
  | 0 => ⟨fun v h => absurd h (by omega), fun xs h => absurd h (by omega),
      fun fs h => absurd h (by omega)⟩
  | n + 1 => by
    obtain ⟨ihV, ihE, ihM⟩ := enc_parse n
    refine ⟨?_, ?_, ?_⟩
    · intro v hsz fuel rest hfuel hplain hrest
      cases v with
      | null =>
        have h1 : 1 ≤ fuel := hfuel
        obtain ⟨fz, rfl⟩ : ∃ k, fuel = k + 1 := ⟨fuel - 1, by omega⟩
        exact parseVal_null fz rest
      | bool b =>
        have h1 : 1 ≤ fuel := hfuel
        obtain ⟨fz, rfl⟩ : ∃ k, fuel = k + 1 := ⟨fuel - 1, by omega⟩
        cases b with
        | true => exact parseVal_true fz rest
        | false => exact parseVal_false fz rest
      | num i =>
        have h1 : 1 ≤ fuel := hfuel
        obtain ⟨fz, rfl⟩ : ∃ k, fuel = k + 1 := ⟨fuel - 1, by omega⟩
        by_cases hn : i < 0
        · have he : encVal (JVal.num i) ++ rest = '-' :: (natDigits i.natAbs ++ rest) := by
            show intChars i ++ rest = _
            simp [intChars, hn]
          rw [he, parseVal_minus, parseNat_natDigits _ _ hrest]
          simp only [Option.map_some', Option.some.injEq, Prod.mk.injEq, JVal.num.injEq]
          exact ⟨by omega, trivial⟩
        · have he : encVal (JVal.num i) ++ rest = natDigits i.natAbs ++ rest := by
            show intChars i ++ rest = _
            simp [intChars, hn]
          obtain ⟨c, t, hct, hd⟩ := natDigits_cons i.natAbs
          rw [he, hct, List.cons_append, parseVal_digit fz _ hd, ← List.cons_append, ← hct,
            parseNat_natDigits _ _ hrest]
          simp only [Option.map_some', Option.some.injEq, Prod.mk.injEq, JVal.num.injEq]
          exact ⟨by omega, trivial⟩
      | str s =>
        have h1 : 1 ≤ fuel := hfuel
        obtain ⟨fz, rfl⟩ : ∃ k, fuel = k + 1 := ⟨fuel - 1, by omega⟩
        have he : encVal (JVal.str s) ++ rest = '"' :: (escAll s.data ++ '"' :: rest) := by
          show ('"' :: (escAll s.data ++ ['"'])) ++ rest = _
          simp
        rw [he, parseVal_quote, parseStrBody_escAll]
        rfl
      | arr xs =>
        cases xs with
        | nil =>
          have h1 : 1 ≤ fuel := hfuel
          obtain ⟨fz, rfl⟩ : ∃ k, fuel = k + 1 := ⟨fuel - 1, by omega⟩
          exact parseVal_lbracket_empty fz rest
        | cons x t =>
          have h1 : 1 + nfElems (x :: t) ≤ fuel := hfuel
          obtain ⟨fz, rfl⟩ : ∃ k, fuel = k + 1 := ⟨fuel - 1, by omega⟩
          obtain ⟨c, tl, hct, hw, hrb⟩ := encElems_head x t
          have he : encVal (JVal.arr (x :: t)) ++ rest = '[' :: (c :: (tl ++ ']' :: rest)) := by
            show ('[' :: (encElems (x :: t) ++ [']'])) ++ rest = _
            rw [hct]
            simp
          have hfold : c :: (tl ++ ']' :: rest) = encElems (x :: t) ++ ']' :: rest := by
            rw [hct]
            simp
          have hszE : sizeOf (x :: t) < n := by
            simp only [JVal.arr.sizeOf_spec] at hsz
            omega
          have hE := ihE (x :: t) hszE fz rest (by omega) hplain (by simp)
          rw [he, parseVal_lbracket_cons fz _ hw hrb, hfold, hE]
          rfl
      | obj fs =>
        cases fs with
        | nil =>
          have h1 : 1 ≤ fuel := hfuel
          obtain ⟨fz, rfl⟩ : ∃ k, fuel = k + 1 := ⟨fuel - 1, by omega⟩
          exact parseVal_lbrace_empty fz rest
        | cons m t =>
          have h1 : 1 + nfMembers (m :: t) ≤ fuel := hfuel
          obtain ⟨fz, rfl⟩ : ∃ k, fuel = k + 1 := ⟨fuel - 1, by omega⟩
          obtain ⟨tl, htl⟩ := encFields_head m t
          have he : encVal (JVal.obj (m :: t)) ++ rest
              = '\x7b' :: ('"' :: (tl ++ '\x7d' :: rest)) := by
            show ('\x7b' :: (encFields (m :: t) ++ ['\x7d'])) ++ rest = _
            rw [htl]
            simp
          have hfold : '"' :: (tl ++ '\x7d' :: rest) = encFields (m :: t) ++ '\x7d' :: rest := by
            rw [htl]
            simp
          have hp : nodupB ((m :: t).map Prod.fst) = true ∧ plainMembers (m :: t) = true := by
            have hb : (nodupB ((m :: t).map Prod.fst) && plainMembers (m :: t)) = true := hplain
            simp only [Bool.and_eq_true] at hb
            exact hb
          have hszM : sizeOf (m :: t) < n := by
            simp only [JVal.obj.sizeOf_spec] at hsz
            omega
          have hM := ihM (m :: t) hszM fz rest (by omega) hp.2 (by simp)
          rw [he, parseVal_lbrace_quote, hfold, hM]
          simp only [Option.map_some']
          rw [buildObj_nodup _ ((nodupB_iff _).mp hp.1)]
    · intro xs hsz fuel rest hfuel hplain hne
      cases xs with
      | nil => exact absurd rfl hne
      | cons x t =>
        have h1 : 1 + nfV x + nfElems t ≤ fuel := hfuel
        obtain ⟨fy, rfl⟩ : ∃ k, fuel = k + 1 := ⟨fuel - 1, by omega⟩
        have hx : sizeOf x < n := by
          simp only [List.cons.sizeOf_spec] at hsz
          omega
        have hplain2 : plainV x = true ∧ plainElems t = true := by
          have hb : (plainV x && plainElems t) = true := hplain
          simp only [Bool.and_eq_true] at hb
          exact hb
        rw [parseElems.eq_def]
        dsimp only
        cases t with
        | nil =>
          have hV := ihV x hx fy (']' :: rest) (by omega) hplain2.1 rfl
          rw [show encElems [x] ++ ']' :: rest = encVal x ++ ']' :: rest from rfl, hV]
          dsimp only
          rw [skipWs_rbracket]
          simp
        | cons y t2 =>
          have hV := ihV x hx fy (',' :: (encElems (y :: t2) ++ ']' :: rest)) (by omega)
            hplain2.1 rfl
          have he : encElems (x :: y :: t2) ++ ']' :: rest
              = encVal x ++ (',' :: (encElems (y :: t2) ++ ']' :: rest)) := by
            show (encVal x ++ ',' :: encElems (y :: t2)) ++ ']' :: rest = _
            simp
          rw [he, hV]
          dsimp only
          rw [skipWs_comma]
          have ht2 : sizeOf (y :: t2) < n := by
            simp only [List.cons.sizeOf_spec] at hsz ⊢
            omega
          have hE := ihE (y :: t2) ht2 fy rest (by omega) hplain2.2 (by simp)
          simp [hE]
    · intro fs hsz fuel rest hfuel hplain hne
      cases fs with
      | nil => exact absurd rfl hne
      | cons m t =>
        obtain ⟨k, v⟩ := m
        have h1 : 1 + nfV v + nfMembers t ≤ fuel := hfuel
        obtain ⟨fy, rfl⟩ : ∃ k2, fuel = k2 + 1 := ⟨fuel - 1, by omega⟩
        have hv : sizeOf v < n := by
          simp only [List.cons.sizeOf_spec, Prod.mk.sizeOf_spec] at hsz
          omega
        have hplain2 : plainV v = true ∧ plainMembers t = true := by
          have hb : (plainV v && plainMembers t) = true := hplain
          simp only [Bool.and_eq_true] at hb
          exact hb
        cases t with
        | nil =>
          have he : encFields [(k, v)] ++ '\x7d' :: rest
              = '"' :: (escAll k.data ++ '"' :: (':' :: (encVal v ++ '\x7d' :: rest))) := by
            show ('"' :: (escAll k.data ++ '"' :: ':' :: encVal v)) ++ '\x7d' :: rest = _
            simp
          have hV := ihV v hv fy ('\x7d' :: rest) (by omega) hplain2.1 rfl
          rw [he, parseMembers_quote, parseStrBody_escAll]
          dsimp only
          rw [skipWs_colon]
          simp [hV, skipWs_rbrace, show String.mk k.data = k from rfl]
        | cons q t2 =>
          have he : encFields ((k, v) :: q :: t2) ++ '\x7d' :: rest
              = '"' :: (escAll k.data ++ '"' :: (':' :: (encVal v
                  ++ ',' :: (encFields (q :: t2) ++ '\x7d' :: rest)))) := by
            show (('"' :: (escAll k.data ++ '"' :: ':' :: encVal v)) ++ ',' :: encFields (q :: t2))
                ++ '\x7d' :: rest = _
            simp
          have hV := ihV v hv fy (',' :: (encFields (q :: t2) ++ '\x7d' :: rest)) (by omega)
            hplain2.1 rfl
          have ht2 : sizeOf (q :: t2) < n := by
            simp only [List.cons.sizeOf_spec] at hsz ⊢
            omega
          have hM := ihM (q :: t2) ht2 fy rest (by omega) hplain2.2 (by simp)
          rw [he, parseMembers_quote, parseStrBody_escAll]
          dsimp only
          rw [skipWs_colon]
          simp [hV, hM, skipWs_comma, show String.mk k.data = k from rfl]

/-- Round trip at the top level: parsing the canonical JSON text of any
well-formed value yields the value back. -/
theorem JSONparse_getJSON (v : JVal) (hp : plainV v = true) :
    JSONparse (getJSON v) = .ok v := by
  have hlen := (nf_le_encLen (sizeOf v + 1)).1 v (by omega)
  have hparse := (enc_parse (sizeOf v + 1)).1 v (by omega) ((encVal v).length + 1) []
    (by omega) hp rfl
  rw [List.append_nil] at hparse
  show (match parseVal ((encVal v).length + 1) (encVal v) with
        | some (w, r) =>
          match skipWs r with
          | [] => Except.ok w
          | _ => Except.error JsonError.parseErr
        | none => Except.error JsonError.parseErr) = Except.ok v
  rw [hparse]
  simp [skipWs]

/-- Claim C6: for every prototype descriptor and every well-formed plain value
(objects with pairwise distinct keys), decoding the encoding succeeds and
yields an object whose own data fields are exactly the own properties of the
value and whose method set comes from the supplied prototype descriptor,
attached unchanged. -/
theorem C6_decode_encode {α : Type} (proto : α) (x : JVal) (hx : plainV x = true) :
    fromJSON proto (getJSON x) = .ok { proto := proto, fields := ownProps x } := by
  simp [fromJSON, JSONparse_getJSON x hx]

/-- Witness for C6: the Circle-like example — the object with radius 10
encodes to the spec text and decodes back to radius 10 with the
prototype attached. -/
theorem C6_witness :
    getJSON (JVal.obj [("radius", JVal.num 10)]) = "\x7b\"radius\":10\x7d" ∧
    fromJSON ["getArea"] (getJSON (JVal.obj [("radius", JVal.num 10)]))
      = .ok { proto := ["getArea"], fields := [("radius", JVal.num 10)] } :=
  ⟨rfl, C6_decode_encode ["getArea"] (JVal.obj [("radius", JVal.num 10)]) rfl⟩

/-- Claim C8: decode is parse-then-copy: the result is exactly the mapped
parse result, so it fails (with the parse error propagated unchanged) exactly
when the text is not valid JSON, and on success the parsed fields pass
through with no shape validation — extra or missing fields are kept. -/
theorem C8_parse_error_passthrough {α : Type} (proto : α) (s : String) :
    fromJSON proto s
      = (JSONparse s).map (fun v => { proto := proto, fields := ownProps v }) ∧
    isErrB (fromJSON proto s) = isErrB (JSONparse s) ∧
    fromJSON proto "not json" = .error .parseErr ∧
    fromJSON proto "\x7b\"a\":1,\"extra\":2\x7d"
      = .ok { proto := proto, fields := [("a", JVal.num 1), ("extra", JVal.num 2)] } := by
  refine ⟨?_, ?_, rfl, rfl⟩
  · cases h : JSONparse s <;> simp [fromJSON, h, Except.map]
  · cases h : JSONparse s <;> simp [fromJSON, h, isErrB]
